import Mathlib

/-!
Shallow embedding of the ducc spherical-harmonic coefficient core:
the `Alm_Base` storage-layout class, the `Alm<T>` coefficient store and
`rotate_alm` from `src/python/alm.h`, and the `Distribution` scheduler
(SINGLE / STATIC / DYNAMIC modes with their `exec*` entry points) from the
threading translation unit bundled in the same file.

Conventions of the embedding:
* C++ `size_t` values are modelled as `Nat`, `ptrdiff_t` as `Int`; casts
  between them are written out (`Int.toNat` for a `size_t(...)` cast of a
  value that is nonnegative at that point).
* `std::vector` is a `List`; unchecked `operator[]` reads that the code
  performs only in bounds are modelled with `List.getD`, while the one
  table whose bounds are in question (`Distribution::nextstart`) uses
  `List.get?` so that the out-of-range access is visible as `none`.
* `double` scalars are modelled as real numbers (`ℝ`), `complex<double>`
  as `ℂ`; the one `double` that only feeds an integer chunk size
  (`fact_max`) is modelled as `ℚ` to keep the scheduler executable.
* An `MR_assert` failure aborts the process; a constructor or function
  guarded by asserts is modelled as returning `Option`/`Except`, with
  `none`/`.error` for the abort.
-/

namespace DuccAlm

/-! ## Alm_Base: storage layout (src/python/alm.h lines 44-133) -/

/-- `Alm_Base::Num_Alms` without its `m<=l` assert:
`((m+1)*(m+2))/2 + (m+1)*(l-m)`. -/
def Num_Alms_val (l m : Nat) : Nat := ((m+1)*(m+2))/2 + (m+1)*(l-m)

/-- `Alm_Base::Num_Alms(l, m)`: asserts `m <= l`, then returns the
triangular count. `none` models the assert firing. -/
def Num_Alms (l m : Nat) : Option Nat :=
  if m ≤ l then some (Num_Alms_val l m) else none

/-- The protected state of `Alm_Base`: `lmax`, `arrsize`, the list of
stored `m` values, and the `mstart` lookup table (indexed by `m` from `0`
to `mval.back()`, sentinel `-2*lmax` for absent columns). -/
structure Alm_Base where
  lmax : Nat
  arrsize : Nat
  mval : List Nat
  mstart : List Int
deriving DecidableEq, Repr

/-- `Alm_Base::index_l0(m) = mstart[m]` (unchecked vector read; all uses
in the theorems stay in bounds). -/
def Alm_Base.index_l0 (b : Alm_Base) (m : Nat) : Int := b.mstart.getD m 0

/-- `Alm_Base::index(l, m) = index_l0(m) + l`.  In C++ the negative
`ptrdiff_t` offset is cast to `size_t` and the addition wraps back into
range; we keep the exact integer value. -/
def Alm_Base.index (b : Alm_Base) (l m : Nat) : Int := b.index_l0 m + l

/-- `Alm_Base::complete()`: `mval.size() == lmax+1`. -/
def Alm_Base.complete (b : Alm_Base) : Bool := b.mval.length == b.lmax + 1

/-- `Alm_Base::Mmax()`: `mval.back()`. -/
def Alm_Base.Mmax (b : Alm_Base) : Nat := (b.mval.getLast?).getD 0

/-- `Alm_Base::n_entries()`: `arrsize`. -/
def Alm_Base.n_entries (b : Alm_Base) : Nat := b.arrsize

/-- The running `idx` of the dense constructor: before processing order
`m` it holds `sum over k < m of (lmax - k + 1)` (the loop does
`idx += lmax-m+1` after assigning `mstart[m]`). -/
def denseIdx (lmax : Nat) : Nat → Nat
  | 0 => 0
  | m+1 => denseIdx lmax m + (lmax - m + 1)

/-- The dense constructor `Alm_Base(lmax_, mmax_)` (lines 98-109):
`mval = [0..mmax]`, `mstart[m] = idx - m` with the running `idx` above,
`arrsize = Num_Alms(lmax_, mmax_)`.  The `Num_Alms` assert `mmax <= lmax`
aborts the whole construction, modelled by `none`. -/
def Alm_Base.dense (lmax_ mmax_ : Nat) : Option Alm_Base :=
  if mmax_ ≤ lmax_ then
    some { lmax := lmax_
           arrsize := Num_Alms_val lmax_ mmax_
           mval := List.range (mmax_+1)
           mstart := (List.range (mmax_+1)).map
             (fun m => (denseIdx lmax_ m : Int) - m) }
  else none

/-- Strict ascent check of the sparse constructors
(`mval[i] > mval[i-1]` for every `i > 0`). -/
def ascending : List Nat → Bool
  | [] => true
  | [_] => true
  | a :: b :: rest => decide (a < b) && ascending (b :: rest)

/-- The shared asserts of both sparse constructors: `mval` non-empty,
every entry `<= lmax`, strictly ascending. -/
def sparseChecks (lmax : Nat) (mval : List Nat) : Bool :=
  decide (0 < mval.length) && mval.all (fun m => decide (m ≤ lmax)) && ascending mval

/-- `mval.back()` for a checked (non-empty) list. -/
def lastD (l : List Nat) : Nat := (l.getLast?).getD 0

/-- The sparse explicit constructor `Alm_Base(lmax_, mval_, mstart_)`
(lines 60-79): adopts the given offsets into a lookup table of size
`mval.back()+1` pre-filled with the sentinel `-2*lmax`, and computes
`arrsize` as the running max of `mstart_[i] + lmax + 1` against 0
(the intermediate `size_t`/`ptrdiff_t` casts are value-preserving because
the running max never leaves 0 downwards). -/
def Alm_Base.sparseExplicit (lmax_ : Nat) (mval_ : List Nat) (mstart_ : List Int) :
    Option Alm_Base :=
  if sparseChecks lmax_ mval_ && (mstart_.length == mval_.length) then
    let tbl0 : List Int := List.replicate (lastD mval_ + 1) (-(2 * (lmax_ : Int)))
    let tbl := (List.range mval_.length).foldl
      (fun t i => t.set (mval_.getD i 0) (mstart_.getD i 0)) tbl0
    let arr := (List.range mval_.length).foldl
      (fun a i => max a (mstart_.getD i 0 + (lmax_ : Int) + 1)) 0
    some { lmax := lmax_, arrsize := arr.toNat, mval := mval_, mstart := tbl }
  else none

/-- The running `cnt` of the sparse implicit constructor
`Alm_Base(lmax_, mval_)` (lines 81-95).  The loop header reads
`for (size_t i=0, cnt=0; i<mval.size(); ++i, cnt+=lmax-mval[i]+1)`:
the comma operator runs `++i` first, so the increment adds
`lmax - mval[i+1] + 1` — the length of the NEXT column, not of the one
just placed (and on the final increment it reads `mval` one past the
end; that value never reaches `mstart` or `arrsize`, so the embedding
leaves it out). -/
def implicitCnt (lmax : Nat) (mval : List Nat) : Nat → Nat
  | 0 => 0
  | i+1 => implicitCnt lmax mval i + (lmax - mval.getD (i+1) 0 + 1)

/-- The sparse implicit constructor `Alm_Base(lmax_, mval_)`
(lines 81-95): `mstart[mval[i]] = cnt_i - mval[i]` with `cnt` as above,
`arrsize = size_t(mstart.back() + lmax + 1)`. -/
def Alm_Base.sparseImplicit (lmax_ : Nat) (mval_ : List Nat) : Option Alm_Base :=
  if sparseChecks lmax_ mval_ then
    let tbl0 : List Int := List.replicate (lastD mval_ + 1) (-(2 * (lmax_ : Int)))
    let tbl := (List.range mval_.length).foldl
      (fun t i => t.set (mval_.getD i 0)
        ((implicitCnt lmax_ mval_ i : Int) - mval_.getD i 0)) tbl0
    let arr := ((tbl.getLast?).getD 0 + (lmax_ : Int) + 1).toNat
    some { lmax := lmax_, arrsize := arr, mval := mval_, mstart := tbl }
  else none

/-! ## Scheduler: `Distribution` and its `exec*` entry points
(threading translation unit, `DUCC0_NO_THREADING` not defined) -/

/-- Modelled from the spec: the `Range` type comes from
`ducc0/infra/threading.h`, which is not part of this excerpt.  The spec
describes ranges as half-open intervals `[lo, hi)` handed to job bodies,
with a default-constructed `Range()` standing for "empty" (the job body
returns when it receives it). -/
structure Range where
  lo : Nat
  hi : Nat
deriving DecidableEq, Repr

/-- The default-constructed `Range()`. -/
def Range.empty : Range := ⟨0, 0⟩

/-- The `Distribution` fields live in SINGLE mode:
`nwork_` and `single_done`. -/
structure SingleState where
  nwork : Nat
  single_done : Bool
deriving DecidableEq, Repr

/-- `Distribution::execSingle` state setup: `single_done = false`,
`nwork_ = nwork`, `nthreads_ = 1`. -/
def execSingleInit (nwork : Nat) : SingleState := ⟨nwork, false⟩

/-- `Distribution::getNext`, SINGLE case (lines 700-705). -/
def getNextSingle (s : SingleState) : Range × SingleState :=
  if s.single_done then (Range.empty, s)
  else (⟨0, s.nwork⟩, { s with single_done := true })

/-- The `Distribution` fields live in STATIC mode: `nwork_`,
`nthreads_`, `chunksize_` and the per-worker `nextstart` table. -/
structure StaticState where
  nwork : Nat
  nthreads : Nat
  chunksize : Nat
  nextstart : List Nat
deriving DecidableEq, Repr

/-- `Distribution::getNext`, STATIC case (lines 706-713).  The C++ reads
`nextstart[thread_id]` unchecked; `none` models that read landing out of
bounds (undefined behavior in the source). -/
def getNextStatic (s : StaticState) (thread_id : Nat) : Option (Range × StaticState) :=
  match s.nextstart.get? thread_id with
  | none => none
  | some pos =>
    if s.nwork ≤ pos then some (Range.empty, s)
    else some (⟨pos, min (pos + s.chunksize) s.nwork⟩,
      { s with nextstart := s.nextstart.set thread_id (pos + s.nthreads * s.chunksize) })

/-- The `Distribution` fields live in DYNAMIC mode: `nwork_`,
`nthreads_`, `chunksize_`, `fact_max_`, `cur_`.  `fact_max_` is a
`double` used only through `size_t((fact_max_*rem)/nthreads_)`; it is
modelled as a rational, the cast as `Rat.floor` + `Int.toNat`. -/
structure DynamicState where
  nwork : Nat
  nthreads : Nat
  chunksize : Nat
  fact_max : ℚ
  cur : Nat
deriving DecidableEq, Repr

/-- `Distribution::getNext`, DYNAMIC case (lines 714-725), one call under
the distribution mutex. -/
def getNextDynamic (s : DynamicState) : Range × DynamicState :=
  if s.nwork ≤ s.cur then (Range.empty, s)
  else
    let rem := s.nwork - s.cur
    let tmp : Nat := ((s.fact_max * (rem : ℚ)) / (s.nthreads : ℚ)).floor.toNat
    let sz := min rem (max s.chunksize tmp)
    (⟨s.cur, s.cur + sz⟩, { s with cur := s.cur + sz })

/-- The mode and mode-relevant state a one-shot `Distribution` is in when
`thread_map` starts. -/
inductive ExecPlan where
  | single : SingleState → ExecPlan
  | staticPlan : StaticState → ExecPlan
  | dynamicPlan : DynamicState → ExecPlan
deriving DecidableEq, Repr

/-- `Distribution::execStatic` (lines 661-674).  `default_nthreads`
stands for the process-wide `get_default_nthreads()` (always `>= 1` in
the source).  A zero chunksize defaults to `ceil(nwork/nthreads)`; if the
chunk covers all the work the call degrades to `execSingle`; otherwise
`nextstart[i] = i*chunksize`. -/
def execStaticInit (nwork nthreads chunksize default_nthreads : Nat) : ExecPlan :=
  let nt := if nthreads == 0 then default_nthreads else nthreads
  let cs := if chunksize < 1 then (nwork + nt - 1) / nt else chunksize
  if nwork ≤ cs then .single (execSingleInit nwork)
  else .staticPlan ⟨nwork, nt, cs, (List.range nt).map (fun i => i * cs)⟩

/-- `Distribution::execDynamic` (lines 675-687): clamps the minimum
chunk to `>= 1`; if `chunksize_*nthreads_ >= nwork_` it degrades to
`execStatic(nwork, nthreads, 0, f)` (passing the original `nthreads`),
else enters DYNAMIC mode with `cur_ = 0`. -/
def execDynamicInit (nwork nthreads chunksize_min : Nat) (fact_max : ℚ)
    (default_nthreads : Nat) : ExecPlan :=
  let nt := if nthreads == 0 then default_nthreads else nthreads
  let cs := if chunksize_min < 1 then 1 else chunksize_min
  if nwork ≤ cs * nt then execStaticInit nwork nthreads 0 default_nthreads
  else .dynamicPlan ⟨nwork, nt, cs, fact_max, 0⟩

/-- `Distribution::execParallel` (lines 688-695): STATIC mode with
`nwork_ = nthreads_`, `chunksize_ = 1` — and `nextstart` left in its
default-constructed (empty) state, never resized. -/
def execParallelInit (nthreads default_nthreads : Nat) : StaticState :=
  let nt := if nthreads == 0 then default_nthreads else nthreads
  ⟨nt, nt, 1, []⟩

/-- The result of worker `t`'s `k`-th `getNext()` call (0-based), with
the worker's successive calls threaded through the shared state
(`getNextStatic` touches only slot `t`, so other workers' interleaved
calls do not affect this subsequence). -/
def staticTrace (s : StaticState) (t : Nat) : Nat → Option (Range × StaticState)
  | 0 => getNextStatic s t
  | k+1 =>
    match staticTrace s t k with
    | none => none
    | some (_, s') => getNextStatic s' t

/-- Just the `Range` of worker `t`'s `k`-th STATIC `getNext()`. -/
def staticNth (s : StaticState) (t k : Nat) : Option Range :=
  (staticTrace s t k).map (fun p => p.1)

/-- Closed form of worker `t`'s `k`-th STATIC range:
`[(t+k*nthreads)*chunksize, (t+k*nthreads+1)*chunksize)` clamped to
`nwork`, empty once past the end. -/
def staticRangeAt (nwork nt cs t k : Nat) : Range :=
  if nwork ≤ (t + k * nt) * cs then Range.empty
  else ⟨(t + k * nt) * cs, min ((t + k * nt) * cs + cs) nwork⟩

/-- The result (and state) of the `k`-th SINGLE `getNext()` call. -/
def singleTrace (s : SingleState) : Nat → Range × SingleState
  | 0 => getNextSingle s
  | k+1 => getNextSingle (singleTrace s k).2

/-- The list of ranges a DYNAMIC distribution hands out, in mutex order,
until exhaustion (`fuel` bounds the recursion; `fuel = nwork` suffices
because every non-exhausted call advances `cur_` by at least one when
`chunksize >= 1`). -/
def dynRanges (s : DynamicState) : Nat → List Range
  | 0 => []
  | fuel+1 =>
    if s.nwork ≤ s.cur then []
    else
      let p := getNextDynamic s
      p.1 :: dynRanges p.2 fuel

/-- `coversB lo hi rs`: the ranges `rs` tile `[lo, hi)` exactly —
consecutive, non-empty, gap-free and overlap-free. -/
def coversB (lo hi : Nat) : List Range → Bool
  | [] => lo == hi
  | r :: rs => (r.lo == lo) && decide (lo < r.hi) && coversB r.hi hi rs

/-! ## Alm<T> construction around a borrowed buffer -/

/-- `Alm<T>::Alm(mav<T,1> &data, size_t lmax_, size_t mmax_)`
(lines 150-155): runs the dense `Alm_Base` constructor, then asserts
`alm.size() == Num_Alms(lmax, mmax_)`.  Only the layout and the size
check matter here; the buffer contents are untouched. -/
def Alm_mk (dataSize lmax_ mmax_ : Nat) : Option Alm_Base :=
  match Alm_Base.dense lmax_ mmax_, Num_Alms lmax_ mmax_ with
  | some b, some na => if dataSize = na then some b else none
  | _, _ => none

/-! ## Alm<T> elementwise operations

The backing `mav<T,1>` buffer is modelled as a function `Nat → T`
together with its size (`alm.size()`, which the constructors force to
`arrsize`); a `mav` factor argument is a function plus its size. -/

/-- One in-place store `buf[i] = v`. -/
def upd {T : Type} (buf : Nat → T) (i : Nat) (v : T) : Nat → T :=
  fun j => if j = i then v else buf j

/-- One in-place store into a 2-D matrix, `d(a, b) = v`. -/
def upd2 (f : Nat → Nat → ℝ) (a b : Nat) (v : ℝ) : Nat → Nat → ℝ :=
  fun x y => if x = a ∧ y = b then v else f x y

/-- The common shape of the in-place loops: visit position `σ x` for
each `x` of `ls` in order, replacing the slot's value through `f x`. -/
def applyAt {T : Type} (σ : Nat → Nat) (f : Nat → T → T) (ls : List Nat)
    (buf : Nat → T) : Nat → T :=
  ls.foldl (fun bf x => upd bf (σ x) (f x (bf (σ x)))) buf

/-- `Alm<T>::Scale(factor)` (lines 163-165):
`for (m=0; m<alm.size(); ++m) alm.v(m) *= factor` — every buffer slot,
stored coefficient or not. -/
def Scale {T : Type} [Mul T] (size : Nat) (factor : T) (buf : Nat → T) : Nat → T :=
  (List.range size).foldl (fun bf m => upd bf m (bf m * factor)) buf

/-- `Alm<T>::Add(const Alm&)` (lines 212-218), after the conformability
assert: `for (m=0; m<alm.size(); ++m) alm.v(m) += other.alm(m)` — again
every buffer slot. -/
def AddAlm {T : Type} [Add T] (size : Nat) (other : Nat → T) (buf : Nat → T) : Nat → T :=
  (List.range size).foldl (fun bf m => upd bf m (bf m + other m)) buf

/-- `Alm<T>::applyLM(func)` (lines 141-146): for each stored `m` of
`mval` and each `l` from `m` to `lmax`, apply `func(l, m, a(l,m))` in
place at slot `index(l, m)` (the `size_t` cast written as `toNat`). -/
def applyLM {T : Type} (b : Alm_Base) (func : Nat → Nat → T → T) (buf : Nat → T) :
    Nat → T :=
  b.mval.foldl (fun bf m =>
    (List.range' m (b.lmax + 1 - m)).foldl
      (fun bf2 l => upd bf2 (b.index l m).toNat
        (func l m (bf2 (b.index l m).toNat))) bf) buf

/-- `Alm<T>::ScaleL(factor)` (lines 167-172): asserts
`factor.size() > lmax`, then `applyLM` with `v *= factor(l)`. -/
def ScaleL {T : Type} [Mul T] (b : Alm_Base) (flen : Nat) (factor : Nat → T)
    (buf : Nat → T) : Option (Nat → T) :=
  if b.lmax < flen then some (applyLM b (fun l _ v => v * factor l) buf) else none

/-- `Alm<T>::ScaleM(factor)` (lines 174-179): asserts
`factor.size() > Mmax()`, then `applyLM` with `v *= factor(m)`. -/
def ScaleM {T : Type} [Mul T] (b : Alm_Base) (flen : Nat) (factor : Nat → T)
    (buf : Nat → T) : Option (Nat → T) :=
  if b.Mmax < flen then some (applyLM b (fun _ m v => v * factor m) buf) else none

/-- Whether buffer slot `i` is the position of some stored coefficient
`a(l, m)` (`m` in `mval`, `m <= l <= lmax`). -/
def isStored (b : Alm_Base) (i : Nat) : Bool :=
  b.mval.any (fun m => (List.range' m (b.lmax + 1 - m)).any
    (fun l => (b.index l m).toNat == i))

/-! ## Wigner-d recursion and rotation (lines 225-344)

`double` arithmetic is modelled over `ℝ`; matrices `d`, `dd` as
functions `Nat → Nat → ℝ` (the `mav<double,2>` buffers, allocated
zero here — the algorithm never reads an unwritten entry). -/

/-- The square-root table `sqt[m] = sqrt(m)`. -/
noncomputable def sqt (k : Nat) : ℝ := Real.sqrt k

/-- One Risbo half-step `j` of `wigner_d_risbo_openmp::recurse`
(lines 258-278) at state `n`: writes rows `0..n`, columns `0..j` of the
target buffer from the source `xd`; everything else keeps the target's
old value `tgt`. -/
noncomputable def halfStep (p q : ℝ) (n j : Nat) (xd tgt : Nat → Nat → ℝ) :
    Nat → Nat → ℝ :=
  fun k i =>
    if k = 0 then
      if i = 0 then q * xd 0 0
      else if i < j then
        (1/(j:ℝ)) * sqt j * (q * sqt (j-i) * xd 0 i - p * sqt i * xd 0 (i-1))
      else if i = j then -p * xd 0 (j-1)
      else tgt k i
    else if k ≤ n then
      if i = 0 then
        (1/(j:ℝ)) * sqt j * (q * sqt (j-k) * xd k 0 + p * sqt k * xd (k-1) 0)
      else if i < j then
        ((1/(j:ℝ)) * sqt (j-k) * q) * sqt (j-i) * xd k i
          - ((1/(j:ℝ)) * sqt (j-k) * p) * sqt i * xd k (i-1)
          + ((1/(j:ℝ)) * sqt k * p) * sqt (j-i) * xd (k-1) i
          + ((1/(j:ℝ)) * sqt k * q) * sqt i * xd (k-1) (i-1)
      else if i = j then
        -((1/(j:ℝ)) * sqt (j-k) * p) * sqt j * xd k (j-1)
          + ((1/(j:ℝ)) * sqt k * q) * sqt j * xd (k-1) (j-1)
      else tgt k i
    else tgt k i

/-- One `recurse()` call advancing the ping-pong pair `(d, dd)` to
state `n` (lines 239-281).  For `n >= 2`: first the bottom row `n` is
padded by sign-alternating reflection of row `n-2` (sign starting at
`(-1)^n`), then half-step `j = 2n-1` writes `dd` from `d` and half-step
`j = 2n` writes `d` back from `dd`. -/
noncomputable def wigStep (p q : ℝ) (st : (Nat → Nat → ℝ) × (Nat → Nat → ℝ)) :
    Nat → (Nat → Nat → ℝ) × (Nat → Nat → ℝ)
  | 0 => (upd2 st.1 0 0 1, st.2)
  | 1 =>
    let d0 := upd2 st.1 0 0 (q*q)
    let d1 := upd2 d0 0 1 (-(p*q*sqt 2))
    let d2 := upd2 d1 0 2 (p*p)
    let d3 := upd2 d2 1 0 (-(d2 0 1))
    let d4 := upd2 d3 1 1 (q*q - p*p)
    let d5 := upd2 d4 1 2 (d4 0 1)
    (d5, st.2)
  | n+2 =>
    let dpad : Nat → Nat → ℝ := fun a b =>
      if a = n+2 ∧ b ≤ 2*(n+2)-2 then
        ((-1:ℝ))^(n+2+b) * st.1 (n+2-2) (2*(n+2)-2-b)
      else st.1 a b
    let dd1 := halfStep p q (n+2) (2*(n+2)-1) dpad st.2
    let d1 := halfStep p q (n+2) (2*(n+2)) dd1 dpad
    (d1, dd1)

/-- The recurrer state after the call that produced `d^n`: both buffers
start at 0 (freshly allocated `mav`s; no unwritten entry is ever read). -/
noncomputable def wigState (p q : ℝ) : Nat → (Nat → Nat → ℝ) × (Nat → Nat → ℝ)
  | 0 => wigStep p q (fun _ _ => 0, fun _ _ => 0) 0
  | n+1 => wigStep p q (wigState p q n) (n+1)

/-- The inner accumulation of `rotate_alm` for one `mm` (lines 314-328),
over the full range `[0, l+1)` (the source fixes `nthreads = 1`, so
`execStatic(l+1, 1, 0, ...)` degrades to a single chunk `[0, l+1)` and
the job body runs inline).  The running sign flips are closed over:
`flip2` at `(mm, m)` is `(mm+lo+...)&1 = (mm+m)&1` for `lo = 0`, `flip`
at `mm` is `mm&1`. -/
noncomputable def rotAccum (d : Nat → Nat → ℝ) (l : Nat) (t1 : ℂ) (mm : Nat)
    (tmp : Nat → ℂ) : Nat → ℂ :=
  (List.range (l+1)).foldl (fun tp m =>
    let d1 : ℝ := if (mm + m) % 2 = 1 then -(d (l-mm) (l-m)) else d (l-mm) (l-m)
    let d2 : ℝ := if mm % 2 = 1 then -(d (l-mm) (l+m)) else d (l-mm) (l+m)
    upd tp m (tp m + ⟨t1.re * (d1 + d2), t1.im * (d1 - d2)⟩)) tmp

/-- One `l` iteration of the `theta != 0` loop of `rotate_alm`
(lines 301-333): initialize `almtmp[m] = a(l,0)*d(l,l+m)` (only entries
`m <= l` are ever read or written back), accumulate the `mm = 1..l`
contributions, then write back `a(l,m) = almtmp[m]*expphi[m]`. -/
noncomputable def rotStepL (b : Alm_Base) (exppsi expphi : Nat → ℂ)
    (d : Nat → Nat → ℝ) (l : Nat) (buf : Nat → ℂ) : Nat → ℂ :=
  let tmp0 : Nat → ℂ := fun m => buf ((b.index l 0).toNat) * ((d l (l+m) : ℝ) : ℂ)
  let tmp1 := (List.range' 1 l).foldl
    (fun tp mm => rotAccum d l (buf ((b.index l mm).toNat) * exppsi mm) mm tp) tmp0
  (List.range (l+1)).foldl
    (fun bf m => upd bf ((b.index l m).toNat) (tmp1 m * expphi m)) buf

/-- The `theta != 0` branch of `rotate_alm` (lines 290-334):
`exppsi[m] = polar(1,-psi*m)`, `expphi[m] = polar(1,-phi*m)`, a Wigner
recurrer at `theta`, then the per-`l` loop. -/
noncomputable def rotateThetaNZ (b : Alm_Base) (psi theta phi : ℝ) (buf : Nat → ℂ) :
    Nat → ℂ :=
  let exppsi : Nat → ℂ := fun (m : Nat) =>
    Complex.exp (((-psi * (m:ℝ) : ℝ) : ℂ) * Complex.I)
  let expphi : Nat → ℂ := fun (m : Nat) =>
    Complex.exp (((-phi * (m:ℝ) : ℝ) : ℂ) * Complex.I)
  (List.range (b.lmax + 1)).foldl
    (fun bf l =>
      rotStepL b exppsi expphi
        (wigState (Real.sin (theta/2)) (Real.cos (theta/2)) l).1 l bf) buf

/-- The `theta == 0` branch of `rotate_alm` (lines 335-343): for each
`m` in `[0, lmax]` compute `ang = polar(1, -(psi+phi)*m)` once and
multiply every `a(l, m)`, `l = m..lmax`, by it in place. -/
noncomputable def rotateTheta0 (b : Alm_Base) (psi phi : ℝ) (buf : Nat → ℂ) :
    Nat → ℂ :=
  (List.range (b.lmax + 1)).foldl (fun bf (m : Nat) =>
    let ang : ℂ := Complex.exp (((-(psi + phi) * (m:ℝ) : ℝ) : ℂ) * Complex.I)
    (List.range' m (b.lmax + 1 - m)).foldl
      (fun bf2 l => upd bf2 (b.index l m).toNat
        (bf2 ((b.index l m).toNat) * ang)) bf) buf

/-- `rotate_alm(alm, psi, theta, phi)` (lines 284-344): asserts
completeness, then dispatches on `theta != 0`. -/
noncomputable def rotate_alm (b : Alm_Base) (psi theta phi : ℝ) (buf : Nat → ℂ) :
    Except String (Nat → ℂ) :=
  if b.complete then
    .ok (if theta ≠ 0 then rotateThetaNZ b psi theta phi buf
         else rotateTheta0 b psi phi buf)
  else .error "rotate_alm: need complete A_lm set"

end DuccAlm

namespace DuccAlm

/-! ## Arithmetic of the dense layout -/

/-- One step of the dense constructor's running index. -/
theorem denseIdx_succ (L m : Nat) :
    denseIdx L (m+1) = denseIdx L m + (L - m + 1) := rfl

/-- The dense running index is monotone in `m`. -/
theorem denseIdx_mono (L : Nat) {m m' : Nat} (h : m ≤ m') :
    denseIdx L m ≤ denseIdx L m' := by
  induction h with
  | refl => exact Nat.le_refl _
  | step _ ih => exact Nat.le_trans ih (Nat.le_add_right _ _)

/-- Doubling removes the division in `Num_Alms`. -/
theorem two_mul_Num_Alms_val (L m : Nat) :
    2 * Num_Alms_val L m = (m+1)*(m+2) + 2*((m+1)*(L-m)) := by
  have d1 : 2 ∣ (m+1)*(m+2) := (Nat.even_mul_succ_self (m+1)).two_dvd
  unfold Num_Alms_val
  rw [Nat.mul_add, Nat.mul_div_cancel' d1]

/-- Closed form of the doubled running index, over `ℤ`. -/
theorem two_mul_denseIdx (L : Nat) : ∀ m : Nat, m ≤ L + 1 →
    (2 * denseIdx L m : Int) = m * (2*(L:Int) + 3 - m) := by
  intro m
  induction m with
  | zero => intro _; simp [denseIdx]
  | succ m ih =>
    intro h
    have hm : m ≤ L := by omega
    have e : denseIdx L (m+1) = denseIdx L m + (L - m + 1) := rfl
    have ihm := ih (by omega)
    have hc : ((L - m : Nat) : Int) = (L : Int) - m := by
      push_cast [hm]; ring
    push_cast [e]
    push_cast at ihm
    rw [hc]
    push_cast at hc ⊢
    nlinarith [ihm]

/-- `Num_Alms(L, M)` is exactly where the dense running index ends:
the layout is a perfect tiling. -/
theorem Num_Alms_val_eq_denseIdx (L M : Nat) (h : M ≤ L) :
    Num_Alms_val L M = denseIdx L (M+1) := by
  have e1 := two_mul_Num_Alms_val L M
  have e2 := two_mul_denseIdx L (M+1) (by omega)
  have h2 : (2 : Int) * (Num_Alms_val L M : Int) = 2 * (denseIdx L (M+1) : Int) := by
    have e1' := congrArg (fun n : Nat => (n : Int)) e1
    push_cast [h] at e1' e2
    linear_combination e1' - e2
  have h3 := mul_left_cancel₀ (two_ne_zero (α := Int)) h2
  exact_mod_cast h3

/-- The `mstart` table of the dense constructor at a stored column. -/
theorem dense_mstart_getD (L M m : Nat) (hm : m ≤ M) (b : Alm_Base)
    (hb : Alm_Base.dense L M = some b) :
    b.mstart.getD m 0 = (denseIdx L m : Int) - m := by
  unfold Alm_Base.dense at hb
  split at hb
  · cases hb
    show (((List.range (M+1)).map fun m => (denseIdx L m : Int) - m).get? m).getD 0 = _
    rw [List.get?_map, List.get?_range (by omega)]
    rfl
  · cases hb

/-- The dense flat index in `Nat` form: column start plus offset. -/
theorem dense_index_eq (L M l m : Nat) (hm : m ≤ M) (hl : m ≤ l) (b : Alm_Base)
    (hb : Alm_Base.dense L M = some b) :
    b.index l m = ((denseIdx L m + (l - m) : Nat) : Int) := by
  unfold Alm_Base.index Alm_Base.index_l0
  rw [dense_mstart_getD L M m hm b hb]
  push_cast [hl]
  ring

/-- Claim C3: for every `M ≤ L` the dense store has
`Num_Alms(L, M) = (M+1)(M+2)/2 + (M+1)(L-M)` coefficients, every
admissible `(l, m)` (`m ≤ M`, `m ≤ l ≤ L`) maps to a slot
`index(l, m) = mstart[m] + l` in `[0, Num_Alms(L, M))`, and `index` is
injective over that domain. -/
theorem C3_dense_index_bijection (L M : Nat) (b : Alm_Base)
    (hb : Alm_Base.dense L M = some b) :
    Num_Alms L M = some (((M+1)*(M+2))/2 + (M+1)*(L-M)) ∧
    (∀ m l, m ≤ M → m ≤ l → l ≤ L →
      0 ≤ b.index l m ∧ b.index l m < (Num_Alms_val L M : Int)) ∧
    (∀ m l m' l', m ≤ M → m ≤ l → l ≤ L → m' ≤ M → m' ≤ l' → l' ≤ L →
      b.index l m = b.index l' m' → l = l' ∧ m = m') := by
  have hML : M ≤ L := by
    unfold Alm_Base.dense at hb
    by_cases h : M ≤ L
    · exact h
    · rw [if_neg h] at hb; cases hb
  have key : ∀ m l, m ≤ M → m ≤ l → l ≤ L →
      b.index l m = ((denseIdx L m + (l - m) : Nat) : Int) :=
    fun m l hm hl _ => dense_index_eq L M l m hm hl b hb
  have colbound : ∀ m l, m ≤ M → m ≤ l → l ≤ L →
      denseIdx L m + (l - m) < denseIdx L (m+1) := by
    intro m l hm hl hL
    rw [denseIdx_succ]
    omega
  refine ⟨by unfold Num_Alms; rw [if_pos hML]; rfl, ?_, ?_⟩
  · intro m l hm hl hL
    rw [key m l hm hl hL]
    constructor
    · exact Int.ofNat_nonneg _
    · have h1 : denseIdx L m + (l - m) < denseIdx L (M+1) :=
        Nat.lt_of_lt_of_le (colbound m l hm hl hL) (denseIdx_mono L (by omega))
      rw [Num_Alms_val_eq_denseIdx L M hML]
      exact_mod_cast h1
  · intro m l m' l' hm hl hL hm' hl' hL' heq
    rw [key m l hm hl hL, key m' l' hm' hl' hL'] at heq
    have heqn : denseIdx L m + (l - m) = denseIdx L m' + (l' - m') := by
      exact_mod_cast heq
    rcases Nat.lt_trichotomy m m' with hlt | hEq | hgt
    · exfalso
      have h1 : denseIdx L m + (l - m) < denseIdx L (m+1) := colbound m l hm hl hL
      have h2 : denseIdx L (m+1) ≤ denseIdx L m' := denseIdx_mono L hlt
      omega
    · subst hEq
      exact ⟨by omega, rfl⟩
    · exfalso
      have h1 : denseIdx L m' + (l' - m') < denseIdx L (m'+1) := colbound m' l' hm' hl' hL'
      have h2 : denseIdx L (m'+1) ≤ denseIdx L m := denseIdx_mono L hgt
      omega

/-- Witness for C3: the dense `(L, M) = (2, 1)` layout, with the slot of
`a(2, 1)` landing strictly below `Num_Alms(2, 1) = 5`. -/
theorem C3_dense_index_bijection_witness :
    Num_Alms 2 1 = some (((1+1)*(1+2))/2 + (1+1)*(2-1)) ∧
    (0 ≤ (⟨2, 5, [0, 1], [0, 2]⟩ : Alm_Base).index 2 1 ∧
      (⟨2, 5, [0, 1], [0, 2]⟩ : Alm_Base).index 2 1 < (Num_Alms_val 2 1 : Int)) :=
  ⟨(C3_dense_index_bijection 2 1 ⟨2, 5, [0, 1], [0, 2]⟩ (by decide)).1,
   (C3_dense_index_bijection 2 1 ⟨2, 5, [0, 1], [0, 2]⟩ (by decide)).2.1 1 2
     (by decide) (by decide) (by decide)⟩

/-! ## Claim theorems: constructors and scheduler basics -/

/-- Claim C1 (code_bug evaluation): the sparse implicit constructor at
`lmax = 2`, `mval = [0, 1]` does NOT pack the columns consecutively.
Column 0 occupies slots 0..2, so consecutive packing demands that the
slot of `a(1,1)` be `index(2,0) + 1 = 3` and `arrsize = (2-0+1) + (2-1+1)
= 5`; the constructor instead yields `mstart = [0, 1]`, putting `a(1,1)`
at slot 2 — colliding with `a(2,0)` — and `arrsize = 4`, because the loop
increment `++i, cnt += lmax - mval[i] + 1` advances `i` before adding the
column length. -/
theorem C1_sparse_implicit_eval :
    Alm_Base.sparseImplicit 2 [0, 1] = some ⟨2, 4, [0, 1], [0, 1]⟩ ∧
    (⟨2, 4, [0, 1], [0, 1]⟩ : Alm_Base).index 1 1 = 2 ∧
    (⟨2, 4, [0, 1], [0, 1]⟩ : Alm_Base).index 2 0 = 2 ∧
    (⟨2, 4, [0, 1], [0, 1]⟩ : Alm_Base).index 2 0 + 1 = 3 ∧
    (⟨2, 4, [0, 1], [0, 1]⟩ : Alm_Base).arrsize = 4 ∧
    (2 - 0 + 1) + (2 - 1 + 1) = 5 := by
  refine ⟨by decide, by decide, by decide, by decide, by decide, by decide⟩

/-- Claim C2 (code_bug evaluation): `execParallel` enters STATIC mode but
never initializes the per-worker `nextstart` table, so it stays empty and
the first `getNext()` of every worker reads it out of bounds (the `none`
branch of the embedded `getNextStatic`, undefined behavior in C++) —
rather than handing worker `t` the range `[t, t+1)`. -/
theorem C2_execParallel_table_out_of_bounds :
    execParallelInit 2 8 = ⟨2, 2, 1, []⟩ ∧
    (execParallelInit 2 8).nextstart = [] ∧
    getNextStatic (execParallelInit 2 8) 0 = none ∧
    getNextStatic (execParallelInit 2 8) 1 = none := by
  refine ⟨by decide, by decide, by decide, by decide⟩

/-- Claim C5 (counterexample): a backing buffer strictly larger than
`arrsize = Num_Alms(L, M)` is rejected by the `Alm` constructor, although
the claim says any buffer of at least that many slots is accepted:
with `L = M = 0`, `Num_Alms = 1`, a 2-slot buffer fails the
`alm.size() == Num_Alms(lmax, mmax_)` assert. -/
theorem C5_larger_buffer_rejected :
    Num_Alms_val 0 0 ≤ 2 ∧ Alm_mk 2 0 0 = none := by
  refine ⟨by decide, by decide⟩

/-- Claim C5 (amended): construction of `Alm<T>` around a borrowed buffer
succeeds exactly when the buffer length EQUALS `Num_Alms(L, M)` (for
`M ≤ L`); both smaller and larger buffers fail the size assert. -/
theorem C5_alm_ctor_size_exact (dataSize L M : Nat) (h : M ≤ L) :
    (∃ b, Alm_mk dataSize L M = some b) ↔ dataSize = Num_Alms_val L M := by
  unfold Alm_mk Alm_Base.dense Num_Alms
  simp only [if_pos h]
  constructor
  · rintro ⟨b, hb⟩
    by_cases hds : dataSize = Num_Alms_val L M
    · exact hds
    · simp [hds] at hb
  · intro hds
    refine ⟨{ lmax := L, arrsize := Num_Alms_val L M, mval := List.range (M+1),
              mstart := (List.range (M+1)).map (fun m => (denseIdx L m : Int) - m) }, ?_⟩
    simp [hds]

/-- Witness for C5: a dense `(L, M) = (1, 1)` store is constructible
around a buffer of exactly `Num_Alms(1,1) = 3` slots. -/
theorem C5_alm_ctor_size_exact_witness :
    (1 : Nat) ≤ 1 ∧ (∃ b, Alm_mk 3 1 1 = some b) :=
  ⟨by decide, (C5_alm_ctor_size_exact 3 1 1 (by decide)).mpr (by decide)⟩

/-- Claim C8 (counterexample): with `nwork = 0` the SINGLE discipline
never returns a non-empty range — the first `getNext()` already returns
`Range(0, 0)`, which is empty — so "exactly one non-empty range followed
by empty ones" fails at `nwork = 0`. -/
theorem C8_single_nwork_zero :
    (singleTrace (execSingleInit 0) 0).1 = Range.empty ∧
    (singleTrace (execSingleInit 0) 1).1 = Range.empty ∧
    (singleTrace (execSingleInit 0) 2).1 = Range.empty := by
  refine ⟨by decide, by decide, by decide⟩

/-- After any SINGLE `getNext()` call the `single_done` flag is set. -/
theorem getNextSingle_sets_done (s : SingleState) :
    (getNextSingle s).2.single_done = true := by
  unfold getNextSingle
  split
  · next h => exact h
  · rfl

/-- Claim C8 (amended): for every `nwork ≥ 1`, SINGLE scheduling returns
the non-empty range `[0, nwork)` on the first `getNext()` call and the
empty range on every subsequent call. -/
theorem C8_single_one_range (nwork : Nat) (h : 1 ≤ nwork) :
    (singleTrace (execSingleInit nwork) 0).1 = ⟨0, nwork⟩ ∧
    (0 : Nat) < nwork ∧
    ∀ k, (singleTrace (execSingleInit nwork) (k+1)).1 = Range.empty := by
  refine ⟨by simp [singleTrace, getNextSingle, execSingleInit], h, ?_⟩
  intro k
  have hdone : (singleTrace (execSingleInit nwork) k).2.single_done = true := by
    cases k with
    | zero => exact getNextSingle_sets_done _
    | succ k => exact getNextSingle_sets_done _
  show (getNextSingle (singleTrace (execSingleInit nwork) k).2).1 = Range.empty
  unfold getNextSingle
  rw [if_pos hdone]

/-- Witness for C8 (amended): at `nwork = 3` the first call yields
`[0, 3)` and the second call is empty. -/
theorem C8_single_one_range_witness :
    (1 : Nat) ≤ 3 ∧ (singleTrace (execSingleInit 3) 0).1 = ⟨0, 3⟩ ∧
    (singleTrace (execSingleInit 3) 1).1 = Range.empty :=
  ⟨by decide, (C8_single_one_range 3 (by decide)).1,
   (C8_single_one_range 3 (by decide)).2.2 0⟩

end DuccAlm


namespace DuccAlm

/-- STATIC `getNext` when the worker's slot exists and is past the end:
returns the empty range and leaves the state untouched. -/
theorem getNextStatic_done (s : StaticState) (t q : Nat)
    (hq : s.nextstart.get? t = some q) (hw : s.nwork ≤ q) :
    getNextStatic s t = some (Range.empty, s) := by
  unfold getNextStatic
  rw [hq]
  exact if_pos hw

/-- STATIC `getNext` when the worker's slot exists and work remains:
returns the clamped chunk and strides the slot by `nthreads*chunksize`. -/
theorem getNextStatic_go (s : StaticState) (t q : Nat)
    (hq : s.nextstart.get? t = some q) (hw : q < s.nwork) :
    getNextStatic s t = some (⟨q, min (q + s.chunksize) s.nwork⟩,
      { s with nextstart := s.nextstart.set t (q + s.nthreads * s.chunksize) }) := by
  unfold getNextStatic
  rw [hq]
  exact if_neg (by omega)

/-- A STATIC `getNext` call touches only the calling worker's slot of
`nextstart` and never changes the other `Distribution` fields. -/
theorem getNextStatic_frame (s : StaticState) (t : Nat) (r : Range) (s' : StaticState)
    (h : getNextStatic s t = some (r, s')) :
    s'.nwork = s.nwork ∧ s'.nthreads = s.nthreads ∧ s'.chunksize = s.chunksize ∧
    s'.nextstart.length = s.nextstart.length ∧
    ∀ j, j ≠ t → s'.nextstart.get? j = s.nextstart.get? j := by
  cases hq : s.nextstart.get? t with
  | none =>
    unfold getNextStatic at h
    rw [hq] at h
    exact Option.noConfusion h
  | some q =>
    by_cases hw : s.nwork ≤ q
    · rw [getNextStatic_done s t q hq hw] at h
      have h' := Option.some.inj h
      obtain ⟨rfl, rfl⟩ : Range.empty = r ∧ s = s' :=
        ⟨congrArg Prod.fst h', congrArg Prod.snd h'⟩
      exact ⟨rfl, rfl, rfl, rfl, fun _ _ => rfl⟩
    · rw [getNextStatic_go s t q hq (by omega)] at h
      have h' := Option.some.inj h
      obtain ⟨rfl, rfl⟩ :
          (⟨q, min (q + s.chunksize) s.nwork⟩ : Range) = r ∧
          ({ s with nextstart := s.nextstart.set t (q + s.nthreads * s.chunksize) }
            : StaticState) = s' :=
        ⟨congrArg Prod.fst h', congrArg Prod.snd h'⟩
      refine ⟨rfl, rfl, rfl, List.length_set .., fun j hj => ?_⟩
      exact List.get?_set_ne _ _ (fun he => hj he.symm)

/-- Characterization of worker `t`'s whole STATIC call sequence, starting
from the state `execStatic` builds (`nextstart[i] = i*chunksize`): the
`k`-th call returns exactly `staticRangeAt`, and the worker's slot stays
one stride ahead (or saturates once the work is exhausted). -/
theorem staticTrace_char (nwork nt cs t : Nat) (ht : t < nt) :
    ∀ k, ∃ s' : StaticState,
      staticTrace ⟨nwork, nt, cs, (List.range nt).map (fun i => i * cs)⟩ t k
        = some (staticRangeAt nwork nt cs t k, s') ∧
      s'.nwork = nwork ∧ s'.nthreads = nt ∧ s'.chunksize = cs ∧
      s'.nextstart.length = nt ∧
      ∃ q, s'.nextstart.get? t = some q ∧
        (q = (t + (k+1) * nt) * cs ∨ (nwork ≤ q ∧ nwork ≤ (t + (k+1) * nt) * cs)) := by
  have hmono : ∀ a b : Nat, a ≤ b → a * cs ≤ b * cs :=
    fun a b hab => Nat.mul_le_mul_right cs hab
  have hlen0 : ((List.range nt).map (fun i => i * cs)).length = nt := by simp
  have hget0 : ((List.range nt).map (fun i => i * cs)).get? t = some (t * cs) := by
    rw [List.get?_map, List.get?_range ht]; rfl
  have h0 : (t + 0 * nt) * cs = t * cs := by ring
  intro k
  induction k with
  | zero =>
    show ∃ s', getNextStatic ⟨nwork, nt, cs, _⟩ t
        = some (staticRangeAt nwork nt cs t 0, s') ∧ _
    by_cases hw : nwork ≤ t * cs
    · refine ⟨⟨nwork, nt, cs, (List.range nt).map (fun i => i * cs)⟩, ?_,
        rfl, rfl, rfl, hlen0, t * cs, hget0, ?_⟩
      · rw [getNextStatic_done _ t (t * cs) hget0 hw]
        rw [staticRangeAt, if_pos (by omega)]
      · right
        have h1 : t * cs ≤ (t + (0+1) * nt) * cs := hmono t (t + (0+1) * nt) (by omega)
        exact ⟨hw, by omega⟩
    · refine ⟨⟨nwork, nt, cs,
        ((List.range nt).map (fun i => i * cs)).set t (t * cs + nt * cs)⟩, ?_,
        rfl, rfl, rfl, ?_, t * cs + nt * cs, ?_, Or.inl (by ring)⟩
      · rw [getNextStatic_go _ t (t * cs) hget0 (show t * cs < nwork by omega)]
        rw [staticRangeAt, if_neg (by omega), h0]
      · rw [List.length_set]; exact hlen0
      · exact List.get?_set_eq_of_lt _ (by rw [hlen0]; exact ht)
  | succ k ih =>
    obtain ⟨s', htr, hnw, hnt, hcs', hlen, q, hq, hdisj⟩ := ih
    have hmonok : (t + (k+1) * nt) * cs ≤ (t + (k+1+1) * nt) * cs :=
      hmono _ _ (Nat.add_le_add_left (Nat.mul_le_mul_right nt (by omega)) t)
    have hstep : staticTrace ⟨nwork, nt, cs, (List.range nt).map (fun i => i * cs)⟩
        t (k+1) = getNextStatic s' t := by
      show (match staticTrace ⟨nwork, nt, cs, _⟩ t k with
        | none => none
        | some (_, s') => getNextStatic s' t) = _
      rw [htr]
    rw [hstep]
    rcases hdisj with hq1 | ⟨hq2, hq3⟩
    · by_cases hw : nwork ≤ q
      · refine ⟨s', ?_, hnw, hnt, hcs', hlen, q, hq, ?_⟩
        · rw [getNextStatic_done s' t q hq (by omega)]
          rw [staticRangeAt, if_pos (by omega)]
        · right
          exact ⟨hw, by omega⟩
      · refine ⟨{ s' with
            nextstart := s'.nextstart.set t (q + s'.nthreads * s'.chunksize) }, ?_,
          hnw, hnt, hcs', ?_, q + s'.nthreads * s'.chunksize, ?_, Or.inl ?_⟩
        · rw [getNextStatic_go s' t q hq (by omega)]
          rw [staticRangeAt, if_neg (by omega), hq1, hcs', hnw]
        · rw [List.length_set]; exact hlen
        · exact List.get?_set_eq_of_lt _ (by rw [hlen]; exact ht)
        · rw [hnt, hcs', hq1]; ring
    · refine ⟨s', ?_, hnw, hnt, hcs', hlen, q, hq, ?_⟩
      · rw [getNextStatic_done s' t q hq (by omega)]
        rw [staticRangeAt, if_pos (by omega)]
      · right
        exact ⟨hq2, by omega⟩

/-- A work item `w < nwork` lies in worker `t`'s `k`-th STATIC range
exactly when `t` and `k` are the remainder-quotient decomposition of
`w / cs` by `nt`: the ranges tile `[0, nwork)` without overlap. -/
theorem staticRangeAt_covers (nwork nt cs t k w : Nat) (hcs : 1 ≤ cs)
    (ht : t < nt) (hw : w < nwork) :
    ((staticRangeAt nwork nt cs t k).lo ≤ w ∧ w < (staticRangeAt nwork nt cs t k).hi)
      ↔ (t = w / cs % nt ∧ k = w / cs / nt) := by
  have hnt : 1 ≤ nt := by omega
  have hj_back : w / cs % nt + w / cs / nt * nt = w / cs := Nat.mod_add_div' _ _
  have hlo : w / cs * cs ≤ w := Nat.div_mul_le_self w cs
  have hhi : w < w / cs * cs + cs := by
    have h := Nat.mod_add_div' w cs
    have h2 : w % cs < cs := Nat.mod_lt _ (by omega)
    omega
  unfold staticRangeAt
  by_cases hpast : nwork ≤ (t + k * nt) * cs
  · rw [if_pos hpast]
    constructor
    · rintro ⟨_, h2⟩
      exact absurd h2 (by simp [Range.empty])
    · rintro ⟨ht', hk'⟩
      exfalso
      have hj : t + k * nt = w / cs := by rw [ht', hk']; exact hj_back
      have hle : (t + k * nt) * cs ≤ w := by rw [hj]; exact hlo
      omega
  · rw [if_neg hpast]
    show ((t + k * nt) * cs ≤ w ∧ w < min ((t + k * nt) * cs + cs) nwork) ↔ _
    constructor
    · rintro ⟨h1, h2⟩
      have h2' : w < (t + k * nt) * cs + cs := by omega
      have hj : w / cs = t + k * nt := by
        apply Nat.div_eq_of_lt_le h1
        calc w < (t + k * nt) * cs + cs := h2'
          _ = (t + k * nt + 1) * cs := by ring
      constructor
      · rw [hj, Nat.add_mul_mod_self_right, Nat.mod_eq_of_lt ht]
      · rw [hj, Nat.add_mul_div_right _ _ hnt, Nat.div_eq_of_lt ht]
        omega
    · rintro ⟨ht', hk'⟩
      have hj : t + k * nt = w / cs := by rw [ht', hk']; exact hj_back
      refine ⟨by rw [hj]; exact hlo, ?_⟩
      rw [hj]
      omega


/-- Claim C7: under STATIC scheduling (state as set up by `execStatic`,
process default `>= 1`), worker `t`'s `k`-th `getNext()` yields exactly
`[(t+k*nthreads)*C, (t+k*nthreads+1)*C)` clamped to `nwork` (empty once
past the end); a work item `w < nwork` lies in worker `t`'s `k`-th range
iff `t = (w/C) mod nthreads` and `k = (w/C) div nthreads` (so the ranges
tile `[0, nwork)` with no overlap); every range stays within `nwork`;
each worker's non-empty ranges are ascending; and a chunk size covering
all the work degrades the call to SINGLE. -/
theorem C7_static_schedule (nwork nthreads chunksize d : Nat) (hd : 1 ≤ d)
    (s₀ : StaticState)
    (h : execStaticInit nwork nthreads chunksize d = .staticPlan s₀) :
    (∀ t k, t < s₀.nthreads →
      staticNth s₀ t k = some (staticRangeAt s₀.nwork s₀.nthreads s₀.chunksize t k)) ∧
    (∀ w, w < s₀.nwork → ∀ t k, t < s₀.nthreads →
      (((staticRangeAt s₀.nwork s₀.nthreads s₀.chunksize t k).lo ≤ w ∧
        w < (staticRangeAt s₀.nwork s₀.nthreads s₀.chunksize t k).hi)
        ↔ (t = w / s₀.chunksize % s₀.nthreads ∧ k = w / s₀.chunksize / s₀.nthreads))) ∧
    (∀ t k, (staticRangeAt s₀.nwork s₀.nthreads s₀.chunksize t k).hi ≤ s₀.nwork) ∧
    (∀ t k, staticRangeAt s₀.nwork s₀.nthreads s₀.chunksize t k ≠ Range.empty →
      staticRangeAt s₀.nwork s₀.nthreads s₀.chunksize t (k+1) = Range.empty ∨
      (staticRangeAt s₀.nwork s₀.nthreads s₀.chunksize t k).hi
        ≤ (staticRangeAt s₀.nwork s₀.nthreads s₀.chunksize t (k+1)).lo) ∧
    (∀ nw nthr c dd, 1 ≤ c → nw ≤ c →
      execStaticInit nw nthr c dd = .single (execSingleInit nw)) := by
  obtain ⟨nw0, nt0, cs0, ns0⟩ := s₀
  simp only [execStaticInit] at h
  set nt := if nthreads == 0 then d else nthreads with hntdef
  set cs := if chunksize < 1 then (nwork + nt - 1) / nt else chunksize with hcsdef
  have hnt1 : 1 ≤ nt := by
    rw [hntdef]
    by_cases hz : nthreads = 0
    · simp [hz]; exact hd
    · simp [hz]; omega
  by_cases hdeg : nwork ≤ cs
  · rw [if_pos hdeg] at h
    exact ExecPlan.noConfusion h
  rw [if_neg hdeg] at h
  injection h with h'
  injection h' with h1 h2 h3 h4
  subst h1; subst h2; subst h3; subst h4
  have hcs1 : 1 ≤ cs := by
    rw [hcsdef]
    by_cases hc : chunksize < 1
    · rw [if_pos hc]
      rw [Nat.one_le_div_iff (by omega)]
      omega
    · rw [if_neg hc]; omega
  refine ⟨?_, ?_, ?_, ?_, ?_⟩
  · intro t k ht
    obtain ⟨s', htr, -⟩ := staticTrace_char nwork nt cs t ht k
    unfold staticNth
    rw [htr]
    rfl
  · intro w hw t k ht
    exact staticRangeAt_covers nwork nt cs t k w hcs1 ht hw
  · intro t k
    unfold staticRangeAt
    split
    · exact Nat.zero_le _
    · exact Nat.min_le_right _ _
  · intro t k hne
    unfold staticRangeAt at hne ⊢
    by_cases hpk : nwork ≤ (t + k * nt) * cs
    · rw [if_pos hpk] at hne
      exact absurd rfl hne
    · by_cases hpk1 : nwork ≤ (t + (k+1) * nt) * cs
      · left
        rw [if_pos hpk1]
      · right
        rw [if_neg hpk, if_neg hpk1]
        show min ((t + k * nt) * cs + cs) nwork ≤ (t + (k+1) * nt) * cs
        have hstep : (t + (k+1) * nt) * cs = (t + k * nt) * cs + nt * cs := by ring
        have hcs_le : cs ≤ nt * cs := by
          calc cs = 1 * cs := (Nat.one_mul cs).symm
            _ ≤ nt * cs := Nat.mul_le_mul_right cs hnt1
        omega
  · intro nw nthr c dd hc hnwc
    simp only [execStaticInit]
    rw [if_neg (show ¬ c < 1 by omega), if_pos hnwc]

/-- Witness for C7: `execStatic(nwork=5, nthreads=2, chunksize=2)` enters
STATIC mode with table `[0, 2]`; worker 0's first call yields its closed
form `[0, 2)`. -/
theorem C7_static_schedule_witness :
    (1 : Nat) ≤ 1 ∧
    staticNth ⟨5, 2, 2, [0, 2]⟩ 0 0 = some (staticRangeAt 5 2 2 0 0) :=
  ⟨by decide,
    (C7_static_schedule 5 2 2 1 (by decide) ⟨5, 2, 2, [0, 2]⟩ (by decide)).1 0 0
      (by decide)⟩


/-! ## DYNAMIC scheduling -/

/-- A DYNAMIC `getNext` with work remaining: hands out
`[cur, cur + sz)` with `sz = min(rem, max(chunksize, floor(fact_max*rem/
nthreads)))` and advances `cur_` by `sz`.  (The `size_t` cast of the
`double` chunk estimate is modelled as `Rat.floor` followed by `toNat`;
the scheduler is only ever used with `fact_max >= 0`.) -/
theorem getNextDynamic_go (nwork nt cs : Nat) (fm : ℚ) (cur : Nat) (h : cur < nwork) :
    getNextDynamic ⟨nwork, nt, cs, fm, cur⟩ =
      (⟨cur, cur + min (nwork - cur)
          (max cs ((fm * ((nwork - cur : Nat) : ℚ) / (nt : ℚ)).floor.toNat))⟩,
       ⟨nwork, nt, cs, fm, cur + min (nwork - cur)
          (max cs ((fm * ((nwork - cur : Nat) : ℚ) / (nt : ℚ)).floor.toNat))⟩) := by
  unfold getNextDynamic
  dsimp only
  rw [if_neg (by omega)]

/-- Repeated DYNAMIC `getNext` calls tile `[cur, nwork)` exactly:
consecutive, non-empty, gap- and overlap-free (fuel-bounded recursion,
`nwork - cur` steps always suffice when `chunksize >= 1`). -/
theorem dynRanges_covers (nwork nt cs : Nat) (fm : ℚ) (hcs : 1 ≤ cs) :
    ∀ fuel cur, cur ≤ nwork → nwork - cur ≤ fuel →
      coversB cur nwork (dynRanges ⟨nwork, nt, cs, fm, cur⟩ fuel) = true := by
  intro fuel
  induction fuel with
  | zero =>
    intro cur h1 h2
    simp only [dynRanges, coversB, beq_iff_eq]
    omega
  | succ fuel ih =>
    intro cur h1 h2
    rw [dynRanges]
    dsimp only
    by_cases hdone : nwork ≤ cur
    · rw [if_pos hdone]
      simp only [coversB, beq_iff_eq]
      omega
    · rw [if_neg hdone]
      rw [getNextDynamic_go nwork nt cs fm cur (by omega)]
      simp only [coversB, Bool.and_eq_true, beq_iff_eq, decide_eq_true_eq,
        beq_self_eq_true]
      exact ⟨⟨trivial, by omega⟩, ih _ (by omega) (by omega)⟩

/-- Claim C6: DYNAMIC `getNext` returns the empty range once `cur >=
nwork` and otherwise the chunk `[cur, cur+sz)` with `sz = min(rem,
max(chunkMin, floor(fact_max*rem/nthreads)))`, advancing `cur` by `sz`;
with `fact_max = 0` every non-final chunk has size exactly `chunkMin`;
the returned ranges partition `[0, nwork)` exactly; and
`execDynamic` degrades to STATIC when `chunkMin * nthreads >= nwork`. -/
theorem C6_dynamic_schedule (nwork nt cs : Nat) (fm : ℚ)
    (hcs : 1 ≤ cs) (hnt : 1 ≤ nt) :
    (∀ cur, nwork ≤ cur →
      getNextDynamic ⟨nwork, nt, cs, fm, cur⟩ = (Range.empty, ⟨nwork, nt, cs, fm, cur⟩)) ∧
    (∀ cur, cur < nwork →
      getNextDynamic ⟨nwork, nt, cs, fm, cur⟩ =
        (⟨cur, cur + min (nwork - cur)
            (max cs ((fm * ((nwork - cur : Nat) : ℚ) / (nt : ℚ)).floor.toNat))⟩,
         ⟨nwork, nt, cs, fm, cur + min (nwork - cur)
            (max cs ((fm * ((nwork - cur : Nat) : ℚ) / (nt : ℚ)).floor.toNat))⟩)) ∧
    (∀ cur, cur < nwork →
      (getNextDynamic ⟨nwork, nt, cs, 0, cur⟩).1.hi < nwork →
      (getNextDynamic ⟨nwork, nt, cs, 0, cur⟩).1.hi
        - (getNextDynamic ⟨nwork, nt, cs, 0, cur⟩).1.lo = cs) ∧
    (coversB 0 nwork (dynRanges ⟨nwork, nt, cs, fm, 0⟩ nwork) = true) ∧
    (∀ nw nthr c dd (fm' : ℚ), 1 ≤ c → 1 ≤ nthr → nw ≤ c * nthr →
      execDynamicInit nw nthr c fm' dd = execStaticInit nw nthr 0 dd) := by
  refine ⟨?_, ?_, ?_, ?_, ?_⟩
  · intro cur h
    unfold getNextDynamic
    dsimp only
    rw [if_pos h]
  · intro cur h
    exact getNextDynamic_go nwork nt cs fm cur h
  · intro cur hcur
    rw [getNextDynamic_go nwork nt cs 0 cur hcur]
    have h0 : ((0 : ℚ) * ((nwork - cur : Nat) : ℚ) / (nt : ℚ)).floor.toNat = 0 := by
      rw [zero_mul, zero_div]; rfl
    rw [h0, Nat.max_zero]
    dsimp only
    intro hlt
    omega
  · exact dynRanges_covers nwork nt cs fm hcs nwork 0 (by omega) (by omega)
  · intro nw nthr c dd fm' h1c h1t hle
    have hne : (nthr == 0) = false := by
      cases nthr with
      | zero => omega
      | succ n => rfl
    simp only [execDynamicInit]
    have hnt' : (if nthr == 0 then dd else nthr) = nthr := by rw [hne]; rfl
    have hcs' : (if c < 1 then 1 else c) = c := by rw [if_neg (by omega)]
    rw [hnt', hcs', if_pos hle]

/-- Witness for C6: `nwork = 10`, 2 threads, `chunkMin = 1`,
`fact_max = 1/4`: the handed-out ranges tile `[0, 10)` exactly. -/
theorem C6_dynamic_schedule_witness :
    ((1 : Nat) ≤ 1 ∧ (1 : Nat) ≤ 2) ∧
    coversB 0 10 (dynRanges ⟨10, 2, 1, (1 : ℚ)/4, 0⟩ 10) = true :=
  ⟨⟨by decide, by decide⟩,
   (C6_dynamic_schedule 10 2 1 ((1 : ℚ)/4) (by decide) (by decide)).2.2.2.1⟩


/-! ## Frame and effect lemmas for the in-place loops -/

/-- A loop of in-place updates leaves untouched every slot it never
addresses. -/
theorem applyAt_frame {T : Type} (σ : Nat → Nat) (f : Nat → T → T) :
    ∀ (ls : List Nat) (buf : Nat → T) (j : Nat), (∀ x ∈ ls, σ x ≠ j) →
      applyAt σ f ls buf j = buf j := by
  intro ls
  induction ls with
  | nil => intro buf j _; rfl
  | cons a rest ih =>
    intro buf j hj
    show applyAt σ f rest (upd buf (σ a) (f a (buf (σ a)))) j = buf j
    rw [ih _ j (fun x hx => hj x (List.mem_cons_of_mem a hx))]
    unfold upd
    rw [if_neg (fun he => hj a (List.mem_cons_self a rest) he.symm)]

/-- A loop of in-place updates whose addresses are pairwise distinct
applies its body exactly once to each addressed slot. -/
theorem applyAt_eq_of_mem {T : Type} (σ : Nat → Nat) (f : Nat → T → T) :
    ∀ (ls : List Nat) (buf : Nat → T) (x : Nat), x ∈ ls → (ls.map σ).Nodup →
      applyAt σ f ls buf (σ x) = f x (buf (σ x)) := by
  intro ls
  induction ls with
  | nil => intro buf x hx _; cases hx
  | cons a rest ih =>
    intro buf x hx hnd
    rw [List.map_cons, List.nodup_cons] at hnd
    obtain ⟨hna, hnd'⟩ := hnd
    show applyAt σ f rest (upd buf (σ a) (f a (buf (σ a)))) (σ x) = f x (buf (σ x))
    by_cases hxa : x = a
    · subst hxa
      rw [applyAt_frame σ f rest _ (σ x)
        (fun y hy (he : σ y = σ x) => hna (he ▸ List.mem_map_of_mem σ hy))]
      unfold upd
      rw [if_pos rfl]
    · have hxr : x ∈ rest := by
        rcases List.mem_cons.mp hx with h | h
        · exact absurd h hxa
        · exact h
      rw [ih _ x hxr hnd']
      unfold upd
      rw [if_neg (fun (he : σ x = σ a) => hna (he ▸ List.mem_map_of_mem σ hxr))]

/-- The nested `applyLM`-shaped loop (outer over a list of orders, inner
over `l = m..lmax`) leaves untouched every slot outside the addressed
positions. -/
theorem nestedFold_frame {T : Type} (b : Alm_Base) (func : Nat → Nat → T → T) :
    ∀ (ms : List Nat) (buf : Nat → T) (j : Nat),
      (∀ m ∈ ms, ∀ l ∈ List.range' m (b.lmax + 1 - m), (b.index l m).toNat ≠ j) →
      ms.foldl (fun bf m => (List.range' m (b.lmax + 1 - m)).foldl
        (fun bf2 l => upd bf2 (b.index l m).toNat
          (func l m (bf2 ((b.index l m).toNat)))) bf) buf j = buf j := by
  intro ms
  induction ms with
  | nil => intro buf j _; rfl
  | cons a rest ih =>
    intro buf j hj
    show rest.foldl _ ((List.range' a (b.lmax + 1 - a)).foldl _ buf) j = buf j
    rw [ih _ j (fun m hm => hj m (List.mem_cons_of_mem a hm))]
    exact applyAt_frame (fun l => (b.index l a).toNat) (fun l v => func l a v)
      (List.range' a (b.lmax + 1 - a)) buf j
      (fun l hl => hj a (List.mem_cons_self a rest) l hl)

/-- The five record fields the dense constructor produces. -/
theorem dense_fields (L M : Nat) (b : Alm_Base) (hb : Alm_Base.dense L M = some b) :
    M ≤ L ∧ b.lmax = L ∧ b.mval = List.range (M+1) ∧
    b.mstart = (List.range (M+1)).map (fun m => (denseIdx L m : Int) - m) ∧
    b.arrsize = Num_Alms_val L M := by
  unfold Alm_Base.dense at hb
  by_cases h : M ≤ L
  · rw [if_pos h] at hb
    injection hb with hb'
    subst hb'
    exact ⟨h, rfl, rfl, rfl, rfl⟩
  · rw [if_neg h] at hb
    exact Option.noConfusion hb

/-- The `size_t` value of a dense slot. -/
theorem dense_index_toNat (L M l m : Nat) (hm : m ≤ M) (hl : m ≤ l) (b : Alm_Base)
    (hb : Alm_Base.dense L M = some b) :
    (b.index l m).toNat = denseIdx L m + (l - m) := by
  rw [dense_index_eq L M l m hm hl b hb]
  exact Int.toNat_natCast _

/-- Injectivity of the dense slot map over admissible pairs, in `Nat`
form. -/
theorem dense_slot_inj (L : Nat) {m l m' l' : Nat}
    (hl : m ≤ l) (hL : l ≤ L) (hl' : m' ≤ l') (hL' : l' ≤ L)
    (heq : denseIdx L m + (l - m) = denseIdx L m' + (l' - m')) : l = l' ∧ m = m' := by
  rcases Nat.lt_trichotomy m m' with hlt | hEq | hgt
  · exfalso
    have h1 : denseIdx L m + (l - m) < denseIdx L (m+1) := by
      rw [denseIdx_succ]; omega
    have h2 : denseIdx L (m+1) ≤ denseIdx L m' := denseIdx_mono L hlt
    have h3 : denseIdx L m' ≤ denseIdx L m' + (l' - m') := Nat.le_add_right _ _
    omega
  · subst hEq
    exact ⟨by omega, rfl⟩
  · exfalso
    have h1 : denseIdx L m' + (l' - m') < denseIdx L (m'+1) := by
      rw [denseIdx_succ]; omega
    have h2 : denseIdx L (m'+1) ≤ denseIdx L m := denseIdx_mono L hgt
    have h3 : denseIdx L m ≤ denseIdx L m + (l - m) := Nat.le_add_right _ _
    omega

/-- On a dense layout, the nested `applyLM`-shaped loop (outer over any
duplicate-free list of orders `<= M`, inner over `l = m..lmax`) applies
its body exactly once at each stored slot. -/
theorem denseNestedFold_at {T : Type} (L M : Nat) (b : Alm_Base)
    (hb : Alm_Base.dense L M = some b) (func : Nat → Nat → T → T) :
    ∀ (ms : List Nat) (buf : Nat → T) (l m : Nat),
      ms.Nodup → (∀ x ∈ ms, x ≤ M) → m ∈ ms → m ≤ l → l ≤ L →
      ms.foldl (fun bf m' => (List.range' m' (b.lmax + 1 - m')).foldl
        (fun bf2 l' => upd bf2 (b.index l' m').toNat
          (func l' m' (bf2 ((b.index l' m').toNat)))) bf) buf ((b.index l m).toNat)
        = func l m (buf ((b.index l m).toNat)) := by
  obtain ⟨hML, hlmax, hmval, hmstart, harr⟩ := dense_fields L M b hb
  have hslot : ∀ l' m', m' ≤ M → m' ≤ l' →
      (b.index l' m').toNat = denseIdx L m' + (l' - m') :=
    fun l' m' h1 h2 => dense_index_toNat L M l' m' h1 h2 b hb
  have hmemr : ∀ m' l', m' ≤ L → (l' ∈ List.range' m' (b.lmax + 1 - m')
      ↔ (m' ≤ l' ∧ l' ≤ L)) := by
    intro m' l' hm'
    rw [List.mem_range'_1, hlmax]
    omega
  intro ms
  induction ms with
  | nil => intro buf l m _ _ hmem _ _; cases hmem
  | cons a rest ih =>
    intro buf l m hnd hbound hmem hml hlL
    rw [List.nodup_cons] at hnd
    obtain ⟨hna, hnd'⟩ := hnd
    have haM : a ≤ M := hbound a (List.mem_cons_self a rest)
    have hmM : m ≤ M := hbound m hmem
    show rest.foldl _
      ((List.range' a (b.lmax + 1 - a)).foldl _ buf) ((b.index l m).toNat) = _
    rcases List.mem_cons.mp hmem with rfl | hmr
    · -- first column is the target's column: hit it once, then the rest
      -- of the columns never touch the slot again
      rw [nestedFold_frame b func rest _ _ (fun m'' hm'' l'' hl'' he => by
        have hm''M : m'' ≤ M := hbound m'' (List.mem_cons_of_mem m hm'')
        have hb'' := (hmemr m'' l'' (by omega)).mp hl''
        rw [hslot l'' m'' hm''M hb''.1, hslot l m hmM hml] at he
        obtain ⟨-, hmm⟩ := dense_slot_inj L hb''.1 hb''.2 hml hlL he
        exact hna (hmm ▸ hm''))]
      exact applyAt_eq_of_mem (fun l' => (b.index l' m).toNat)
        (fun l' v => func l' m v) (List.range' m (b.lmax + 1 - m)) buf l
        ((hmemr m l (by omega)).mpr ⟨hml, hlL⟩)
        (List.Nodup.map_on (fun x hx y hy he => by
          have hx' := (hmemr m x (by omega)).mp hx
          have hy' := (hmemr m y (by omega)).mp hy
          rw [hslot x m hmM hx'.1, hslot y m hmM hy'.1] at he
          omega) (List.nodup_range' ..))
    · -- the first column never touches the target slot; recurse
      have hbuf' : ((List.range' a (b.lmax + 1 - a)).foldl
          (fun bf2 l' => upd bf2 (b.index l' a).toNat
            (func l' a (bf2 ((b.index l' a).toNat)))) buf) ((b.index l m).toNat)
          = buf ((b.index l m).toNat) := by
        show applyAt (fun l' => (b.index l' a).toNat) (fun l' v => func l' a v)
          (List.range' a (b.lmax + 1 - a)) buf ((b.index l m).toNat)
          = buf ((b.index l m).toNat)
        refine applyAt_frame (fun l' => (b.index l' a).toNat) (fun l' v => func l' a v)
          (List.range' a (b.lmax + 1 - a)) buf _
          (fun l'' hl'' (he : (b.index l'' a).toNat = (b.index l m).toNat) => ?_)
        have hb'' := (hmemr a l'' (by omega)).mp hl''
        rw [hslot l'' a haM hb''.1, hslot l m hmM hml] at he
        obtain ⟨-, hmm⟩ := dense_slot_inj L hb''.1 hb''.2 hml hlL he
        exact hna (hmm ▸ hmr)
      rw [ih _ l m hnd' (fun x hx => hbound x (List.mem_cons_of_mem a hx)) hmr hml hlL]
      rw [hbuf']


/-- Claim C10: `Scale` and `Add` walk every one of the `n_entries()`
buffer slots — including slots that are not the position of any stored
coefficient, which exist for sparse layouts whose columns do not cover
the whole buffer — whereas `ScaleL`, `ScaleM` and the iteration helper
`applyLM` visit exactly the stored `(l, m)` pairs and leave every other
slot unchanged (the stored-pair effect shown for the dense layouts the
`Alm` constructors produce, whose slots are pairwise distinct). -/
theorem C10_scale_add_frame {T : Type} [Mul T] [Add T] :
    (∀ (size : Nat) (factor : T) (buf : Nat → T) (i : Nat),
      (i < size → Scale size factor buf i = buf i * factor) ∧
      (size ≤ i → Scale size factor buf i = buf i)) ∧
    (∀ (size : Nat) (other buf : Nat → T) (i : Nat),
      (i < size → AddAlm size other buf i = buf i + other i) ∧
      (size ≤ i → AddAlm size other buf i = buf i)) ∧
    (∀ (b : Alm_Base) (func : Nat → Nat → T → T) (buf : Nat → T) (i : Nat),
      isStored b i = false → applyLM b func buf i = buf i) ∧
    (∀ (b : Alm_Base) (flen : Nat) (factor : Nat → T) (buf out : Nat → T),
      ScaleL b flen factor buf = some out →
      ∀ i, isStored b i = false → out i = buf i) ∧
    (∀ (b : Alm_Base) (flen : Nat) (factor : Nat → T) (buf out : Nat → T),
      ScaleM b flen factor buf = some out →
      ∀ i, isStored b i = false → out i = buf i) ∧
    (∀ (L M : Nat) (b : Alm_Base), Alm_Base.dense L M = some b →
      ∀ (func : Nat → Nat → T → T) (buf : Nat → T) (l m : Nat),
        m ≤ M → m ≤ l → l ≤ L →
        applyLM b func buf ((b.index l m).toNat)
          = func l m (buf ((b.index l m).toNat))) ∧
    (Alm_Base.sparseExplicit 1 [1] [5] = some ⟨1, 7, [1], [-2, 5]⟩ ∧
      isStored ⟨1, 7, [1], [-2, 5]⟩ 0 = false ∧
      (0 : Nat) < (⟨1, 7, [1], [-2, 5]⟩ : Alm_Base).n_entries) := by
  have hLM_frame : ∀ (b : Alm_Base) (func : Nat → Nat → T → T) (buf : Nat → T)
      (i : Nat), isStored b i = false → applyLM b func buf i = buf i := by
    intro b func buf i h
    refine nestedFold_frame b func b.mval buf i ?_
    intro m hm l hl he
    have hst : isStored b i = true := by
      unfold isStored
      simp only [List.any_eq_true, beq_iff_eq]
      exact ⟨m, hm, l, hl, he⟩
    rw [hst] at h
    exact Bool.noConfusion h
  refine ⟨?_, ?_, hLM_frame, ?_, ?_, ?_, ?_⟩
  · intro size factor buf i
    constructor
    · intro h
      show applyAt (fun m => m) (fun _ v => v * factor) (List.range size) buf i = _
      have := applyAt_eq_of_mem (fun m => m) (fun _ v => v * factor) (List.range size)
        buf i (List.mem_range.mpr h) (by simpa using List.nodup_range size)
      exact this
    · intro h
      show applyAt (fun m => m) (fun _ v => v * factor) (List.range size) buf i = _
      exact applyAt_frame _ _ _ _ _
        (fun x hx (he : x = i) => by
          subst he
          exact absurd (List.mem_range.mp hx) (by omega))
  · intro size other buf i
    constructor
    · intro h
      show applyAt (fun m => m) (fun m v => v + other m) (List.range size) buf i = _
      have := applyAt_eq_of_mem (fun m => m) (fun m v => v + other m) (List.range size)
        buf i (List.mem_range.mpr h) (by simpa using List.nodup_range size)
      exact this
    · intro h
      show applyAt (fun m => m) (fun m v => v + other m) (List.range size) buf i = _
      exact applyAt_frame _ _ _ _ _
        (fun x hx (he : x = i) => by
          subst he
          exact absurd (List.mem_range.mp hx) (by omega))
  · intro b flen factor buf out h i hi
    unfold ScaleL at h
    by_cases hcond : b.lmax < flen
    · rw [if_pos hcond] at h
      injection h with h'
      subst h'
      exact hLM_frame b _ buf i hi
    · rw [if_neg hcond] at h
      exact Option.noConfusion h
  · intro b flen factor buf out h i hi
    unfold ScaleM at h
    by_cases hcond : b.Mmax < flen
    · rw [if_pos hcond] at h
      injection h with h'
      subst h'
      exact hLM_frame b _ buf i hi
    · rw [if_neg hcond] at h
      exact Option.noConfusion h
  · intro L M b hb func buf l m hm hl hL
    obtain ⟨hML, hlmax, hmval, -, -⟩ := dense_fields L M b hb
    refine denseNestedFold_at L M b hb func b.mval buf l m ?_ ?_ ?_ hl hL
    · rw [hmval]; exact List.nodup_range _
    · intro x hx
      rw [hmval] at hx
      have := List.mem_range.mp hx
      omega
    · rw [hmval]
      exact List.mem_range.mpr (by omega)
  · exact ⟨by decide, by decide, by decide⟩

/-- Witness for C10 over `T = ℤ`: `Scale` multiplies the unstored slot 0
of the gap layout `(L=1, mval=[1], mstart=[5])`, while `applyLM` leaves
it untouched. -/
theorem C10_scale_add_frame_witness :
    ((0 : Nat) < 7 ∧
      Scale 7 (2 : Int) (fun _ => (5 : Int)) 0 = (fun _ => (5 : Int)) 0 * 2) ∧
    (isStored ⟨1, 7, [1], [-2, 5]⟩ 0 = false ∧
      applyLM (⟨1, 7, [1], [-2, 5]⟩ : Alm_Base) (fun _ _ v => v * (2 : Int))
        (fun _ => (5 : Int)) 0 = (fun _ => (5 : Int)) 0) :=
  ⟨⟨by decide, ((C10_scale_add_frame (T := Int)).1 7 2 (fun _ => 5) 0).1 (by decide)⟩,
   ⟨by decide, (C10_scale_add_frame (T := Int)).2.2.1 ⟨1, 7, [1], [-2, 5]⟩
      (fun _ _ v => v * 2) (fun _ => 5) 0 (by decide)⟩⟩

/-- Claim C4: on a complete store (dense `(L, L)` layout, the only
complete layout the `Alm` constructors produce), the `theta == 0` branch
of `rotate_alm` multiplies every stored `a(l, m)` by
`exp(-i*(psi+phi)*m)` — a factor depending only on `m` — and its
definition involves no Wigner recursion. -/
theorem C4_rotate_theta0_phase (L : Nat) (b : Alm_Base)
    (hb : Alm_Base.dense L L = some b) (psi phi : ℝ) (buf : Nat → ℂ)
    (l m : Nat) (hm : m ≤ l) (hl : l ≤ L) :
    rotateTheta0 b psi phi buf ((b.index l m).toNat)
      = buf ((b.index l m).toNat)
        * Complex.exp (((-(psi + phi) * (m:ℝ) : ℝ) : ℂ) * Complex.I) := by
  obtain ⟨-, hlmax, -, -, -⟩ := dense_fields L L b hb
  exact denseNestedFold_at L L b hb
    (fun _ m' v => v * Complex.exp (((-(psi + phi) * (m':ℝ) : ℝ) : ℂ) * Complex.I))
    (List.range (b.lmax + 1)) buf l m (List.nodup_range _)
    (fun x hx => by
      have := List.mem_range.mp hx
      omega)
    (List.mem_range.mpr (by omega)) hm hl

/-- Witness for C4: the dense `(1, 1)` store with constant buffer 1 at
`(l, m) = (1, 1)` and `psi = phi = 0`. -/
theorem C4_rotate_theta0_phase_witness :
    ((1 : Nat) ≤ 1 ∧ (1 : Nat) ≤ 1) ∧
    rotateTheta0 ⟨1, 3, [0, 1], [0, 1]⟩ 0 0 (fun _ => 1)
        (((⟨1, 3, [0, 1], [0, 1]⟩ : Alm_Base).index 1 1).toNat)
      = (fun _ => (1 : ℂ)) (((⟨1, 3, [0, 1], [0, 1]⟩ : Alm_Base).index 1 1).toNat)
        * Complex.exp (((-((0:ℝ) + 0) * ((1:Nat):ℝ) : ℝ) : ℂ) * Complex.I) :=
  ⟨⟨le_refl 1, le_refl 1⟩,
   C4_rotate_theta0_phase 1 ⟨1, 3, [0, 1], [0, 1]⟩ (by decide) 0 0 (fun _ => 1) 1 1
     (le_refl 1) (le_refl 1)⟩

/-- Claim C9: `rotate_alm` fails (ShapeError through the assert channel)
exactly when the store is not complete, completeness being
`mval.size() == lmax + 1`; on a complete store it proceeds and returns
the rotated buffer.  For the dense-constructed layouts, completeness
holds exactly when `mmax = lmax`. -/
theorem C9_rotate_completeness (b : Alm_Base) (psi theta phi : ℝ) (buf : Nat → ℂ) :
    ((∃ e, rotate_alm b psi theta phi buf = .error e) ↔ b.mval.length ≠ b.lmax + 1) ∧
    (b.mval.length = b.lmax + 1 →
      rotate_alm b psi theta phi buf
        = .ok (if theta ≠ 0 then rotateThetaNZ b psi theta phi buf
               else rotateTheta0 b psi phi buf)) ∧
    (∀ L M bd, Alm_Base.dense L M = some bd → (bd.complete = true ↔ M = L)) := by
  have hcomp : b.complete = true ↔ b.mval.length = b.lmax + 1 := by
    unfold Alm_Base.complete
    exact beq_iff_eq
  refine ⟨⟨?_, ?_⟩, ?_, ?_⟩
  · rintro ⟨e, he⟩ hlen
    unfold rotate_alm at he
    rw [if_pos (hcomp.mpr hlen)] at he
    exact Except.noConfusion he
  · intro hlen
    refine ⟨"rotate_alm: need complete A_lm set", ?_⟩
    unfold rotate_alm
    rw [if_neg (fun hc => hlen (hcomp.mp hc))]
  · intro hlen
    unfold rotate_alm
    rw [if_pos (hcomp.mpr hlen)]
  · intro L M bd hbd
    obtain ⟨hML, hlmax, hmval, -, -⟩ := dense_fields L M bd hbd
    unfold Alm_Base.complete
    rw [hmval, hlmax, List.length_range]
    simp only [beq_iff_eq]
    omega

/-- Witness for C9: the complete dense `(1, 1)` store passes the check
and the rotation proceeds (here with `theta = 0`). -/
theorem C9_rotate_completeness_witness :
    ((⟨1, 3, [0, 1], [0, 1]⟩ : Alm_Base).mval.length
        = (⟨1, 3, [0, 1], [0, 1]⟩ : Alm_Base).lmax + 1) ∧
    rotate_alm ⟨1, 3, [0, 1], [0, 1]⟩ 0 0 0 (fun _ => 1)
      = .ok (if (0:ℝ) ≠ 0 then rotateThetaNZ ⟨1, 3, [0, 1], [0, 1]⟩ 0 0 0 (fun _ => 1)
             else rotateTheta0 ⟨1, 3, [0, 1], [0, 1]⟩ 0 0 (fun _ => 1)) :=
  ⟨by decide,
   (C9_rotate_completeness ⟨1, 3, [0, 1], [0, 1]⟩ 0 0 0 (fun _ => 1)).2.1 (by decide)⟩

end DuccAlm
